import Mathlib

/-!
Shallow embedding of the core of `src/EasyDear.hpp` (HelifeWasTaken/EasyDear):
the fuzzy item-filtering/ranking engine of `FuzzyCombo::update`, the owned
string candidate list `Combo`, and the text-input buffer `InputText`.

Strings are modelled as `List Char` (the C++ code treats them as byte
sequences).  C++ `float` scores are modelled exactly: the accumulated `score`
is always a small integer (a sum of `+10` and `-15` terms), `max_score` is
`10 * min(...)`, both exactly representable, and the only division is the
final `score / max_score`, modelled in `ℚ`.  The acceptance test
`score_percent > 0.60f` becomes `3/5 < score_percent`; for the integer-valued
scores produced here the two thresholds decide identically.  When
`max_score == 0` the C++ division yields NaN (query empty, `score = 0`) or
`-inf` (candidate empty, `score < 0`), and both fail `> 0.60f`; Lean's
rational convention `Rat.divInt x 0 = 0` also fails `> 3/5`, so the embedded
acceptance decision agrees with the IEEE behaviour of the source in every
reachable case.
-/

namespace EasyDear

/-- Byte-wise ASCII lower-casing, the semantics of `::tolower` applied
per character by `std::transform` in `FuzzyCombo::update` (lines 788, 800):
`A`..`Z` map to `a`..`z`, every other byte passes through unchanged. -/
def tolowerChar (c : Char) : Char :=
  if 'A' ≤ c ∧ c ≤ 'Z' then Char.ofNat (c.toNat + 32) else c

/-- `std::transform(s.begin(), s.end(), s.begin(), ::tolower)`. -/
def lowerStr (s : List Char) : List Char := s.map tolowerChar

/-- The scoring loop of `FuzzyCombo::update` (lines 802-811): for each
query character in order, `std::find` the first occurrence in the working
copy of the candidate; if found add `SCORE_EQUAL = 10` and `erase` that
occurrence, otherwise add `SCORE_NOT_SAME = -15`.  `List.erase` removes the
first occurrence, exactly like `item_str.erase(it)` on the iterator returned
by `std::find`. -/
def fuzzyGo : List Char → List Char → Int
  | [], _ => 0
  | c :: rest, copy =>
      if c ∈ copy then 10 + fuzzyGo rest (copy.erase c)
      else -15 + fuzzyGo rest copy

/-- `score` after the loop, for the lower-cased query `input_text` and the
lower-cased working copy `item_str` of a candidate. -/
def score (q item : List Char) : Int := fuzzyGo (lowerStr q) (lowerStr item)

/-- `max_score = SCORE_EQUAL * std::min(input_text.size(), item.size())`
(line 797). -/
def maxScore (q item : List Char) : Int := 10 * min q.length item.length

/-- `score_percent = score / max_score` (line 812), in `ℚ` (written with
`Rat.divInt`, which is exactly rational division — see
`scorePercent_eq_div` below).  See the header comment: when `maxScore = 0`
this is `0` and fails the threshold test, matching the NaN / `-inf`
comparisons of the source. -/
def scorePercent (q item : List Char) : ℚ := Rat.divInt (score q item) (maxScore q item)

/-- The threshold `0.60` (`mkRat 3 5 = 3/5 = 0.6`; see `threshold_eq`). -/
def threshold : ℚ := mkRat 3 5

/-- The acceptance test `score_percent > 0.60f` (line 813). -/
def accepted (q item : List Char) : Prop := threshold < scorePercent q item

instance (q item : List Char) : Decidable (accepted q item) := by
  unfold accepted; infer_instance

/-- The ranked insertion of lines 814-821: `std::find_if` the first element
of `valids` whose stored score is strictly less than the new
`score_percent`, and `insert` before it; if there is none, `push_back`. -/
def insertRanked : List (List Char × ℚ) → (List Char × ℚ) → List (List Char × ℚ)
  | [], x => [x]
  | y :: ys, x => if y.2 < x.2 then x :: y :: ys else y :: insertRanked ys x

/-- One iteration of the candidate loop (lines 795-823). -/
def evalStep (q : List Char) (valids : List (List Char × ℚ)) (item : List Char) :
    List (List Char × ℚ) :=
  if threshold < scorePercent q item then insertRanked valids (item, scorePercent q item)
  else valids

/-- The whole filtering/ranking pass of `FuzzyCombo::update` as a function of
the (already read) query text and the master item list: iterate over
`m_items` in order, score each, and insert the accepted ones into `valids`. -/
def fuzzyEvaluate (q : List Char) (items : List (List Char)) : List (List Char × ℚ) :=
  items.foldl (evalStep q) []

/-- The `Combo` widget state: `m_current_item : int` and the owned string
vector `m_items` (buffer ownership is not modelled; each `char*` buffer is
modelled by the character list it holds). -/
structure Combo where
  current_item : Int
  items : List (List Char)

/-- `Combo::clear` (lines 693-700): releases every buffer and empties the
vector; `m_current_item` is untouched. -/
def Combo.clear (c : Combo) : Combo := { c with items := [] }

/-- `Combo::add_item` (lines 713-721): copies `item` into a fresh owned
buffer and appends it. -/
def Combo.add_item (c : Combo) (s : List Char) : Combo :=
  { c with items := c.items ++ [s] }

/-- `Combo::add_items` (lines 702-711): `clear()`, then `add_item` per
element in order, then `m_current_item = 0`. -/
def Combo.add_items (c : Combo) (l : List (List Char)) : Combo :=
  let c1 := c.clear
  let c2 := l.foldl Combo.add_item c1
  { c2 with current_item := 0 }

/-- Outcome of `Combo::get_current_item`: the `nullptr` "not found" sentinel
returned by the guard, a buffer read in range, or an out-of-bounds
`std::vector` access — undefined behavior in the source — when the guard
passes but the index used on line 739 is not within the vector. -/
inductive LookupResult where
  | notFound : LookupResult
  | found : List Char → LookupResult
  | outOfRange : LookupResult
  deriving DecidableEq

/-- `Combo::get_current_item` (lines 734-740):
`if ((unsigned int)m_current_item >= m_items.size()) return nullptr;
 return m_items[m_current_item];`.
The guard's `(unsigned int)` cast of the 32-bit `int` is value mod `2^32`,
compared against the 64-bit `size()`.  The indexing on line 739, however,
uses the raw `int`, converted to `size_t` by `operator[]` — value mod
`2^64`.  When that index is outside the vector the source's access is
undefined behavior; the model surfaces it as `LookupResult.outOfRange`. -/
def Combo.get_current_item (c : Combo) : LookupResult :=
  let u : Nat := (c.current_item % (2 ^ 32 : Int)).toNat
  if u ≥ c.items.length then .notFound
  else
    match c.items.get? ((c.current_item % (2 ^ 64 : Int)).toNat) with
    | some a => .found a
    | none => .outOfRange

/-- The `InputText` widget state: the capacity `m_max_length` and the
backing buffer `m_text`, allocated as `new char[m_max_length + 1]` (so a
well-formed state has `text.length = max_length + 1`; bytes the constructor
never wrote are arbitrary). -/
structure InputText where
  max_length : Nat
  text : List Char

/-- `InputText::set_value` (lines 592-598): `memcpy` the first
`min(value.size(), m_max_length)` bytes into the buffer, write `'\0'` right
after them, and leave the rest of the buffer unchanged. -/
def InputText.set_value (it : InputText) (v : List Char) : InputText :=
  let m := min v.length it.max_length
  { it with text := v.take m ++ [Char.ofNat 0] ++ it.text.drop (m + 1) }

/-- `InputText::get_text` (lines 622-625): `std::string(m_text, m_max_length)`
— exactly `m_max_length` bytes from the start of the buffer, null bytes and
all. -/
def InputText.get_text (it : InputText) : List Char := it.text.take it.max_length

/-- The `FuzzyCombo` widget state (lines 756-839). -/
structure FuzzyCombo where
  input_text : InputText
  items : List (List Char)
  filtered_combo : Combo

/-- The query string `FuzzyCombo::update` consumes (line 787):
`m_input_text.get_text()`. -/
def FuzzyCombo.query (fc : FuzzyCombo) : List Char := fc.input_text.get_text

/-- The state transformation of `FuzzyCombo::update` (lines 782-833), with
the ImGui draw calls and the interactive mutation of the input buffer (both
external) elided: read the query, run the filtering pass, then
`m_filtered_combo.clear()`, `add_item(item.first)` per accepted pair in rank
order, and `set_current_item_index(0)`. -/
def FuzzyCombo.update (fc : FuzzyCombo) : FuzzyCombo :=
  let valids := fuzzyEvaluate fc.query fc.items
  let c1 := fc.filtered_combo.clear
  let c2 := valids.foldl (fun c p => c.add_item p.1) c1
  { fc with filtered_combo := { c2 with current_item := 0 } }

/-- The reference scoring procedure as the spec states it (§4.2 steps 1-3):
lower-case both strings, start from `score = 0`, and for each query
character in left-to-right order either consume the first occurrence from
the working copy and add 10, or add `-15`.  Stated as a `foldl` carrying the
(working copy, score) state, to be compared with the source's `score`. -/
def refStep : (List Char × Int) → Char → (List Char × Int)
  | (copy, s), c => if c ∈ copy then (copy.erase c, s + 10) else (copy, s - 15)

/-- The score of the spec's reference procedure (§4.2), to be compared with
the source's `score`. -/
def refScore (q cand : List Char) : Int :=
  ((lowerStr q).foldl refStep (lowerStr cand, 0)).2

/-- Ranked order of result entries: a later entry scores no more. -/
def RankLE (a b : List Char × ℚ) : Prop := b.2 ≤ a.2

end EasyDear

namespace EasyDear

theorem scorePercent_eq_div (q item : List Char) :
    scorePercent q item = (score q item : ℚ) / (maxScore q item : ℚ) :=
  Rat.divInt_eq_div _ _

theorem threshold_eq : threshold = 3 / 5 := by
  unfold threshold; norm_num [mkRat, Rat.normalize_eq_mkRat, Rat.mkRat_eq_div]

theorem mem_insertRanked (l : List (List Char × ℚ)) (x z : List Char × ℚ) :
    z ∈ insertRanked l x ↔ z = x ∨ z ∈ l := by
  induction l with
  | nil => simp [insertRanked]
  | cons y ys ih =>
      by_cases h : y.2 < x.2
      · simp only [insertRanked, if_pos h, List.mem_cons]
      · simp only [insertRanked, if_neg h, List.mem_cons, ih]
        tauto

theorem mem_foldl_evalStep (q : List Char) (items : List (List Char))
    (acc : List (List Char × ℚ)) (z : List Char × ℚ) :
    z ∈ items.foldl (evalStep q) acc ↔
      z ∈ acc ∨ (z.1 ∈ items ∧ accepted q z.1 ∧ z.2 = scorePercent q z.1) := by
  induction items generalizing acc with
  | nil => simp
  | cons a items ih =>
      rw [List.foldl_cons, ih]
      by_cases h : threshold < scorePercent q a
      · simp only [evalStep, if_pos h, mem_insertRanked, List.mem_cons]
        constructor
        · rintro ((rfl | hz) | ⟨h1, h2, h3⟩)
          · exact Or.inr ⟨Or.inl rfl, h, rfl⟩
          · exact Or.inl hz
          · exact Or.inr ⟨Or.inr h1, h2, h3⟩
        · rintro (hz | ⟨(rfl | h1), h2, h3⟩)
          · exact Or.inl (Or.inr hz)
          · exact Or.inl (Or.inl (Prod.ext rfl h3))
          · exact Or.inr ⟨h1, h2, h3⟩
      · simp only [evalStep, if_neg h, List.mem_cons]
        constructor
        · rintro (hz | ⟨h1, h2, h3⟩)
          · exact Or.inl hz
          · exact Or.inr ⟨Or.inr h1, h2, h3⟩
        · rintro (hz | ⟨(rfl | h1), h2, h3⟩)
          · exact Or.inl hz
          · exact absurd h2 h
          · exact Or.inr ⟨h1, h2, h3⟩

theorem mem_fuzzyEvaluate (q : List Char) (items : List (List Char)) (z : List Char × ℚ) :
    z ∈ fuzzyEvaluate q items ↔
      z.1 ∈ items ∧ accepted q z.1 ∧ z.2 = scorePercent q z.1 := by
  rw [fuzzyEvaluate, mem_foldl_evalStep]; simp

theorem insertRanked_sorted {l : List (List Char × ℚ)} (x : List Char × ℚ)
    (hl : l.Pairwise RankLE) : (insertRanked l x).Pairwise RankLE := by
  induction l with
  | nil => simp [insertRanked, RankLE]
  | cons y ys ih =>
      rcases List.pairwise_cons.mp hl with ⟨hy, hys⟩
      by_cases h : y.2 < x.2
      · rw [insertRanked, if_pos h]
        refine List.pairwise_cons.mpr ⟨?_, hl⟩
        intro z hz
        rcases List.mem_cons.mp hz with rfl | hz
        · exact le_of_lt h
        · exact le_trans (hy z hz) (le_of_lt h)
      · rw [insertRanked, if_neg h]
        refine List.pairwise_cons.mpr ⟨?_, ih hys⟩
        intro z hz
        rcases (mem_insertRanked ys x z).mp hz with rfl | hz
        · exact le_of_not_lt h
        · exact hy z hz

theorem fuzzyEvaluate_sorted (q : List Char) (items : List (List Char)) :
    (fuzzyEvaluate q items).Pairwise RankLE := by
  have H : ∀ (its : List (List Char)) (acc : List (List Char × ℚ)),
      acc.Pairwise RankLE → (its.foldl (evalStep q) acc).Pairwise RankLE := by
    intro its
    induction its with
    | nil => intro acc h; exact h
    | cons a its ih =>
        intro acc h
        rw [List.foldl_cons]
        apply ih
        unfold evalStep
        split
        · exact insertRanked_sorted _ h
        · exact h
  exact H items [] (List.Pairwise.nil)

theorem fuzzyGo_le (q : List Char) : ∀ copy : List Char,
    fuzzyGo q copy ≤ 10 * min q.length copy.length := by
  induction q with
  | nil => intro copy; simp [fuzzyGo]
  | cons c rest ih =>
      intro copy
      rw [fuzzyGo]
      by_cases h : c ∈ copy
      · rw [if_pos h]
        have hlen : (copy.erase c).length = copy.length - 1 := List.length_erase_of_mem h
        have hpos : 1 ≤ copy.length := List.length_pos.mpr (List.ne_nil_of_mem h)
        have := ih (copy.erase c)
        rw [hlen] at this
        have : fuzzyGo rest (copy.erase c) ≤ 10 * min rest.length (copy.length - 1) := this
        simp only [List.length_cons]
        omega
      · rw [if_neg h]
        have := ih copy
        simp only [List.length_cons]
        omega

theorem lowerStr_length (s : List Char) : (lowerStr s).length = s.length := by
  simp [lowerStr]

theorem score_le_maxScore (q item : List Char) : score q item ≤ maxScore q item := by
  have := fuzzyGo_le (lowerStr q) (lowerStr item)
  rw [lowerStr_length, lowerStr_length] at this
  exact this

theorem scorePercent_le_one (q item : List Char) : scorePercent q item ≤ 1 := by
  rw [scorePercent_eq_div]
  rcases Nat.eq_zero_or_pos (min q.length item.length) with h | h
  · rw [maxScore, h]
    norm_num
  · have hmax0 : (0 : Int) < maxScore q item := by
      rw [maxScore]; omega
    have hmax : (0 : ℚ) < (maxScore q item : ℚ) := by exact_mod_cast hmax0
    rw [div_le_one hmax]
    exact_mod_cast score_le_maxScore q item

theorem fuzzyGo_self (l : List Char) : fuzzyGo l l = 10 * l.length := by
  induction l with
  | nil => simp [fuzzyGo]
  | cons c rest ih =>
      rw [fuzzyGo, if_pos (List.mem_cons_self c rest)]
      have : (c :: rest).erase c = rest := by simp [List.erase_cons_head]
      rw [this, ih]
      simp [List.length_cons]
      ring

theorem fuzzyGo_perm {q q' : List Char} (h : q.Perm q') :
    ∀ copy, fuzzyGo q copy = fuzzyGo q' copy := by
  induction h with
  | nil => intro copy; rfl
  | cons a _ ih =>
      intro copy
      rw [fuzzyGo, fuzzyGo]
      by_cases ha : a ∈ copy
      · rw [if_pos ha, if_pos ha, ih]
      · rw [if_neg ha, if_neg ha, ih]
  | swap x y l =>
      intro copy
      by_cases hxy : x = y
      · subst hxy; rfl
      · by_cases hx : x ∈ copy <;> by_cases hy : y ∈ copy
        · have hx' : x ∈ copy.erase y := (List.mem_erase_of_ne hxy).mpr hx
          have hy' : y ∈ copy.erase x := (List.mem_erase_of_ne (Ne.symm hxy)).mpr hy
          simp only [fuzzyGo, if_pos hx, if_pos hy, if_pos hx', if_pos hy']
          rw [List.erase_comm]
        · have hy' : y ∉ copy.erase x := fun hc => hy (List.mem_of_mem_erase hc)
          simp only [fuzzyGo, if_pos hx, if_neg hy, if_neg hy']
          omega
        · have hx' : x ∉ copy.erase y := fun hc => hx (List.mem_of_mem_erase hc)
          simp only [fuzzyGo, if_neg hx, if_pos hy, if_neg hx']
          omega
        · simp only [fuzzyGo, if_neg hx, if_neg hy]
  | trans _ _ ih1 ih2 =>
      intro copy
      rw [ih1, ih2]

theorem score_perm {q q' : List Char} (h : q.Perm q') (item : List Char) :
    score q item = score q' item :=
  fuzzyGo_perm (h.map tolowerChar) (lowerStr item)

theorem foldl_refStep (q : List Char) : ∀ (copy : List Char) (s : Int),
    (q.foldl refStep (copy, s)).2 = s + fuzzyGo q copy := by
  induction q with
  | nil => intro copy s; simp [fuzzyGo]
  | cons c rest ih =>
      intro copy s
      rw [List.foldl_cons, fuzzyGo]
      by_cases h : c ∈ copy
      · rw [show refStep (copy, s) c = (copy.erase c, s + 10) by simp [refStep, h], ih,
          if_pos h]
        omega
      · rw [show refStep (copy, s) c = (copy, s - 15) by simp [refStep, h], ih, if_neg h]
        omega

theorem refScore_eq_score (q cand : List Char) : refScore q cand = score q cand := by
  rw [refScore, score, foldl_refStep]
  omega

theorem insertRanked_eq (l : List (List Char × ℚ)) (x : List Char × ℚ) :
    insertRanked l x =
      l.takeWhile (fun y => decide (x.2 ≤ y.2)) ++
        x :: l.dropWhile (fun y => decide (x.2 ≤ y.2)) := by
  induction l with
  | nil => simp [insertRanked]
  | cons y ys ih =>
      by_cases h : y.2 < x.2
      · rw [insertRanked, if_pos h]
        have : (decide (x.2 ≤ y.2)) = false := by simp [not_le.mpr h]
        simp [List.takeWhile_cons, List.dropWhile_cons, this]
      · rw [insertRanked, if_neg h]
        have : (decide (x.2 ≤ y.2)) = true := by simp [le_of_not_lt h]
        simp [List.takeWhile_cons, List.dropWhile_cons, this, ih]

theorem combo_foldl_add_item (l : List (List Char)) : ∀ (c : Combo),
    (l.foldl Combo.add_item c).items = c.items ++ l := by
  induction l with
  | nil => intro c; simp
  | cons a l ih =>
      intro c
      rw [List.foldl_cons, ih]
      simp [Combo.add_item]

theorem scorePercent_of_maxScore_zero (q item : List Char) (h : maxScore q item = 0) :
    scorePercent q item = 0 := by
  rw [scorePercent, h, Rat.divInt_zero]

theorem threshold_pos : 0 < threshold := by rw [threshold_eq]; norm_num

theorem not_accepted_of_maxScore_zero (q item : List Char) (h : maxScore q item = 0) :
    ¬ accepted q item := by
  rw [accepted, scorePercent_of_maxScore_zero q item h]
  exact not_lt.mpr (le_of_lt threshold_pos)

theorem fuzzyEvaluate_nil_query (items : List (List Char)) :
    fuzzyEvaluate [] items = [] := by
  have step : ∀ (its : List (List Char)) (acc : List (List Char × ℚ)),
      its.foldl (evalStep []) acc = acc := by
    intro its
    induction its with
    | nil => intro acc; rfl
    | cons a its ih =>
        intro acc
        rw [List.foldl_cons]
        have hmax : maxScore [] a = 0 := by simp [maxScore]
        have : ¬ threshold < scorePercent [] a := not_accepted_of_maxScore_zero [] a hmax
        rw [evalStep, if_neg this]
        exact ih acc
  exact step items []

theorem combo_foldl_add_fst (valids : List (List Char × ℚ)) : ∀ (c : Combo),
    (valids.foldl (fun c p => c.add_item p.1) c).items = c.items ++ valids.map Prod.fst := by
  induction valids with
  | nil => intro c; simp
  | cons a l ih =>
      intro c
      rw [List.foldl_cons, ih]
      simp [Combo.add_item]

theorem set_value_text_length (it : InputText) (v : List Char)
    (h : it.text.length = it.max_length + 1) :
    (it.set_value v).text.length = it.max_length + 1 := by
  rw [InputText.set_value]
  have hm : min v.length it.max_length ≤ it.max_length := min_le_right _ _
  simp only [List.length_append, List.length_take, List.length_cons, List.length_drop,
    List.length_nil, h]
  omega

theorem scorePercent_self (q cand : List Char) (hq : q ≠ [])
    (heq : lowerStr q = lowerStr cand) : scorePercent q cand = 1 := by
  have hlen : q.length = cand.length := by
    have := congrArg List.length heq
    rwa [lowerStr_length, lowerStr_length] at this
  have hscore : score q cand = 10 * q.length := by
    rw [score, ← heq, fuzzyGo_self, lowerStr_length]
  have hmax : maxScore q cand = 10 * q.length := by
    rw [maxScore, ← hlen, min_self]
  have hne : (10 * q.length : Int) ≠ 0 := by
    have : q.length ≠ 0 := fun hc => hq (List.eq_nil_of_length_eq_zero hc)
    omega
  rw [scorePercent, hscore, hmax, Rat.divInt_self']
  exact hne

/-- C1 (counterexample): with the empty query and the non-empty master list
`["Apple"]`, the engine's result is empty — the candidate is rejected, not
accepted as the claim states. -/
theorem empty_query_rejects_apple : fuzzyEvaluate [] ["Apple".data] = [] := by decide

/-- C1 (amended): whenever `max_score = 0` — in particular for the empty
query — the acceptance test fails (`score/max_score` is NaN or `-inf` in the
source, modelled as `0`), so the empty query produces the empty result, and
no candidate with `max_score = 0` is ever accepted. -/
theorem maxScore_zero_rejects (q item : List Char) (items : List (List Char))
    (h : maxScore q item = 0) :
    ¬ accepted q item ∧ fuzzyEvaluate [] items = [] :=
  ⟨not_accepted_of_maxScore_zero q item h, fuzzyEvaluate_nil_query items⟩

theorem maxScore_zero_rejects_witness :
    maxScore [] "Apple".data = 0 ∧
      (¬ accepted [] "Apple".data ∧ fuzzyEvaluate [] ["Banana".data] = []) :=
  ⟨by decide, maxScore_zero_rejects [] "Apple".data ["Banana".data] (by decide)⟩

/-- C2 (counterexample): on `["Apple", "Banana", "Grape", "Pineapple"]` with
query `"ap"`, `"Grape"` (which contains both `a` and `p`) is accepted with
`score_percent = 1` and ranks ahead of `"Pineapple"`, contradicting the
claim that `"Apple"` and `"Pineapple"` rank ahead of `"Grape"`. -/
theorem ap_scenario_grape_beats_pineapple :
    fuzzyEvaluate "ap".data ["Apple".data, "Banana".data, "Grape".data, "Pineapple".data]
        = [("Apple".data, 1), ("Grape".data, 1), ("Pineapple".data, 1)] ∧
      accepted "ap".data "Grape".data := by decide

/-- C2 (amended): on `["Apple", "Banana", "Grape", "Pineapple"]` with query
`"ap"`, the engine accepts `"Apple"`, `"Grape"` and `"Pineapple"`, all with
`score_percent = 1`, in that (master-list) order since the scores tie,
rejects `"Banana"`, and for `"Apple"` computes `max_score = 20`,
`score = 20`, `score_percent = 1`. -/
theorem ap_scenario_result :
    (fuzzyEvaluate "ap".data ["Apple".data, "Banana".data, "Grape".data, "Pineapple".data]).map
        Prod.fst = ["Apple".data, "Grape".data, "Pineapple".data] ∧
      maxScore "ap".data "Apple".data = 20 ∧
      score "ap".data "Apple".data = 20 ∧
      scorePercent "ap".data "Apple".data = 1 ∧
      ¬ accepted "ap".data "Banana".data := by decide

/-- C3: `get_text` returns exactly `max_length` characters no matter how
short the stored text is (the terminating null and the bytes after it are
included), and the query `FuzzyCombo::update` consumes therefore always has
length `max_length` (256 for the embedded input). -/
theorem get_text_length (it : InputText) (v : List Char)
    (h : it.text.length = it.max_length + 1) (fc : FuzzyCombo)
    (hfc : fc.input_text.text.length = fc.input_text.max_length + 1) :
    (it.set_value v).get_text.length = it.max_length ∧
      (v.length < it.max_length → Char.ofNat 0 ∈ (it.set_value v).get_text) ∧
      fc.query.length = fc.input_text.max_length := by
  refine ⟨?_, ?_, ?_⟩
  · rw [InputText.get_text, List.length_take, set_value_text_length it v h,
      show (it.set_value v).max_length = it.max_length from rfl]
    omega
  · intro hv
    have hm : min v.length it.max_length = v.length := min_eq_left (le_of_lt hv)
    rw [InputText.get_text, InputText.set_value]
    simp only [hm, List.take_length]
    rw [List.take_append_eq_append_take]
    apply List.mem_append_left
    rw [List.take_of_length_le (by simp; omega)]
    exact List.mem_append_right _ (by simp)
  · rw [FuzzyCombo.query, InputText.get_text, List.length_take, hfc]
    omega

theorem get_text_length_witness :
    (⟨2, ['x', 'y', 'z']⟩ : InputText).text.length = (2 : Nat) + 1 ∧
      ((⟨2, ['x', 'y', 'z']⟩ : InputText).set_value ['a']).get_text.length = 2 ∧
      ((['a'] : List Char).length < 2 →
        Char.ofNat 0 ∈ ((⟨2, ['x', 'y', 'z']⟩ : InputText).set_value ['a']).get_text) ∧
      (⟨⟨2, ['a', 'p', Char.ofNat 0]⟩, [], ⟨0, []⟩⟩ : FuzzyCombo).query.length = 2 :=
  ⟨by decide, get_text_length ⟨2, ['x', 'y', 'z']⟩ ['a'] (by decide)
    ⟨⟨2, ['a', 'p', Char.ofNat 0]⟩, [], ⟨0, []⟩⟩ (by decide)⟩

/-- C4: the source's score equals the spec's reference procedure, and a
candidate appears in the result exactly when it is in the master list and
its `score / max_score` exceeds `0.60 = 3/5` (with the paired value being
that quotient). -/
theorem score_reference_procedure :
    (∀ q cand : List Char, refScore q cand = score q cand) ∧
      (∀ (q : List Char) (items : List (List Char)) (z : List Char × ℚ),
        z ∈ fuzzyEvaluate q items ↔
          z.1 ∈ items ∧ z.2 = (score q z.1 : ℚ) / (maxScore q z.1 : ℚ) ∧
            3 / 5 < (score q z.1 : ℚ) / (maxScore q z.1 : ℚ)) := by
  constructor
  · exact refScore_eq_score
  · intro q items z
    rw [mem_fuzzyEvaluate, ← scorePercent_eq_div, ← threshold_eq, accepted]
    tauto

/-- C5: the result is produced by in-order ranked insertion — each accepted
candidate goes immediately before the first existing element whose stored
score is strictly less than its own (`takeWhile`/`dropWhile`
characterization) — and consequently the stored scores are non-increasing
along the result. -/
theorem result_sorted_by_score :
    (∀ (q : List Char) (items : List (List Char)),
        fuzzyEvaluate q items = items.foldl (evalStep q) [] ∧
          (fuzzyEvaluate q items).Pairwise (fun a b => b.2 ≤ a.2)) ∧
      (∀ (l : List (List Char × ℚ)) (x : List Char × ℚ),
        insertRanked l x =
          l.takeWhile (fun y => decide (x.2 ≤ y.2)) ++
            x :: l.dropWhile (fun y => decide (x.2 ≤ y.2))) :=
  ⟨fun q items => ⟨rfl, fuzzyEvaluate_sorted q items⟩, insertRanked_eq⟩

/-- C6 (amended): a non-empty query that case-insensitively equals a
candidate of the master list gives that candidate `score_percent = 1`, and
the candidate appears in the result with every earlier entry also scoring
exactly 1 — nothing with a strictly lower score precedes it. -/
theorem exact_match_ranks_first (q cand : List Char) (items : List (List Char))
    (hq : q ≠ []) (heq : lowerStr q = lowerStr cand) (hmem : cand ∈ items) :
    scorePercent q cand = 1 ∧
      ∃ pre post, fuzzyEvaluate q items = pre ++ (cand, (1 : ℚ)) :: post ∧
        ∀ x ∈ pre, x.2 = (1 : ℚ) := by
  have hp1 := scorePercent_self q cand hq heq
  have hacc : accepted q cand := by
    rw [accepted, hp1, threshold_eq]; norm_num
  have hmem' : (cand, (1 : ℚ)) ∈ fuzzyEvaluate q items :=
    (mem_fuzzyEvaluate q items (cand, 1)).mpr ⟨hmem, hacc, hp1.symm⟩
  obtain ⟨pre, post, hsplit⟩ := List.append_of_mem hmem'
  refine ⟨hp1, pre, post, hsplit, ?_⟩
  intro x hx
  have hsort := fuzzyEvaluate_sorted q items
  rw [hsplit] at hsort
  have h1le : (1 : ℚ) ≤ x.2 := by
    rcases List.pairwise_append.mp hsort with ⟨_, _, hrel⟩
    exact hrel x hx (cand, 1) (List.mem_cons_self _ _)
  have hle1 : x.2 ≤ 1 := by
    have hxmem : x ∈ fuzzyEvaluate q items := by
      rw [hsplit]; exact List.mem_append_left _ hx
    rcases (mem_fuzzyEvaluate q items x).mp hxmem with ⟨_, _, hx2⟩
    rw [hx2]
    exact scorePercent_le_one q x.1
  exact le_antisymm hle1 h1le

theorem exact_match_ranks_first_witness :
    ("apple".data ≠ []) ∧ lowerStr "apple".data = lowerStr "Apple".data ∧
      "Apple".data ∈ ["Banana".data, "Apple".data] ∧
      (scorePercent "apple".data "Apple".data = 1 ∧
        ∃ pre post,
          fuzzyEvaluate "apple".data ["Banana".data, "Apple".data]
              = pre ++ ("Apple".data, (1 : ℚ)) :: post ∧
            ∀ x ∈ pre, x.2 = (1 : ℚ)) :=
  ⟨by decide, by decide, by decide,
    exact_match_ranks_first "apple".data "Apple".data ["Banana".data, "Apple".data]
      (by decide) (by decide) (by decide)⟩

/-- C6 (counterexample): the empty query is case-insensitively equal to the
empty candidate, yet with master list `[""]` the empty candidate scores
`0/0` (modelled `0`, NaN in the source), not `1.0`, and the result is empty
— the matched candidate does not rank at all. -/
theorem exact_match_empty_fails :
    lowerStr [] = lowerStr [] ∧ ([] : List Char) ∈ [([] : List Char)] ∧
      scorePercent [] [] ≠ 1 ∧ fuzzyEvaluate [] [[]] = [] := by decide

/-- C7 (amended): for any well-formed state — a 32-bit `int` index and at
most `2^31` stored items — the lookup returns the stored buffer exactly when
`0 ≤ index < length` and the "not found" sentinel otherwise, negative
indices included, and never accesses out of range.  (The bound on the
length matters: for a vector of at least `2^32 + index` elements a negative
index passes the `(unsigned int)` guard and line 739 then indexes with the
`int` converted to `size_t`, an out-of-bounds access — see the
counterexample.) -/
theorem get_current_item_safe (c : Combo) (h1 : -(2 ^ 31) ≤ c.current_item)
    (h2 : c.current_item < 2 ^ 31) (h3 : c.items.length ≤ 2 ^ 31) :
    ((0 ≤ c.current_item ∧ c.current_item < (c.items.length : Int)) →
        ∃ a, c.items.get? c.current_item.toNat = some a ∧
          c.get_current_item = .found a) ∧
      ((c.current_item < 0 ∨ (c.items.length : Int) ≤ c.current_item) →
        c.get_current_item = .notFound) := by
  constructor
  · rintro ⟨hge, hlt⟩
    have hu32 : (c.current_item % (2 ^ 32 : Int)).toNat = c.current_item.toNat := by omega
    have hu64 : (c.current_item % (2 ^ 64 : Int)).toNat = c.current_item.toNat := by omega
    have hlt' : c.current_item.toNat < c.items.length := by omega
    refine ⟨c.items.get ⟨c.current_item.toNat, hlt'⟩, List.get?_eq_get hlt', ?_⟩
    have hnot : ¬ (c.current_item % (2 ^ 32 : Int)).toNat ≥ c.items.length := by omega
    rw [Combo.get_current_item, if_neg hnot, hu64, List.get?_eq_get hlt']
  · intro hbad
    have : (c.current_item % (2 ^ 32 : Int)).toNat ≥ c.items.length := by omega
    rw [Combo.get_current_item, if_pos this]

theorem get_current_item_safe_witness :
    (Combo.get_current_item ⟨0, [['a']]⟩ = .found ['a']) ∧
      (Combo.get_current_item ⟨5, [['a']]⟩ = .notFound) := by
  have h := get_current_item_safe ⟨0, [['a']]⟩ (by decide) (by decide) (by decide)
  have h' := get_current_item_safe ⟨5, [['a']]⟩ (by decide) (by decide) (by decide)
  constructor
  · obtain ⟨a, ha1, ha2⟩ := h.1 ⟨by decide, by decide⟩
    have hval : ([['a']] : List (List Char)).get? (0 : Nat) = some ['a'] := by decide
    have ha : a = ['a'] := Option.some.inj ((ha1.symm.trans hval))
    exact ha ▸ ha2
  · exact h'.2 (Or.inr (by decide))

/-- C7 (counterexample): with `2^32` stored items and index `-1`, the
`(unsigned int)` guard value is `2^32 - 1`, which passes the bounds check,
and line 739 then indexes the vector with the raw `int` converted to
`size_t` — `2^64 - 1`, far outside the vector: an out-of-bounds access
(undefined behavior), not a "not found" sentinel return. -/
theorem negative_index_out_of_bounds :
    ((⟨-1, List.replicate (2 ^ 32) ['a']⟩ : Combo).current_item < 0) ∧
      (⟨-1, List.replicate (2 ^ 32) ['a']⟩ : Combo).get_current_item = .outOfRange := by
  refine ⟨by decide, ?_⟩
  have hnone : (List.replicate (2 ^ 32) (['a'] : List Char)).get?
      ((((-1 : Int)) % (2 ^ 64 : Int)).toNat) = none := by
    refine List.get?_eq_none.mpr ?_
    rw [List.length_replicate]
    decide
  rw [Combo.get_current_item,
    show (⟨-1, List.replicate (2 ^ 32) ['a']⟩ : Combo).current_item = -1 from rfl,
    show (⟨-1, List.replicate (2 ^ 32) ['a']⟩ : Combo).items
      = List.replicate (2 ^ 32) ['a'] from rfl,
    hnone, List.length_replicate]
  rw [if_neg (by decide : ¬ (((-1 : Int) % (2 ^ 32 : Int)).toNat ≥ 2 ^ 32 : Prop))]

/-- C8: `add_items` is `clear()` followed by in-order `add_item`s followed by
resetting the selection index to 0; consequently the final items are exactly
the given list and the final index is 0. -/
theorem add_items_spec (c : Combo) (l : List (List Char)) :
    c.add_items l = { l.foldl Combo.add_item c.clear with current_item := 0 } ∧
      (c.add_items l).items = l ∧ (c.add_items l).current_item = 0 := by
  refine ⟨rfl, ?_, rfl⟩
  show (l.foldl Combo.add_item c.clear).items = l
  rw [combo_foldl_add_item]
  simp [Combo.clear]

/-- C9: the score, `max_score`, `score_percent` and the acceptance decision
are invariant under permuting the query's characters — the outcome depends
only on the multiset of query bytes. -/
theorem score_query_perm_invariant (q q' item : List Char) (h : q.Perm q') :
    score q item = score q' item ∧ maxScore q item = maxScore q' item ∧
      scorePercent q item = scorePercent q' item ∧ (accepted q item ↔ accepted q' item) := by
  have hs := score_perm h item
  have hm : maxScore q item = maxScore q' item := by
    rw [maxScore, maxScore, h.length_eq]
  have hp : scorePercent q item = scorePercent q' item := by
    rw [scorePercent, scorePercent, hs, hm]
  exact ⟨hs, hm, hp, by rw [accepted, accepted, hp]⟩

theorem score_query_perm_invariant_witness :
    (['a', 'b'].Perm ['b', 'a']) ∧
      (score ['a', 'b'] "abc".data = score ['b', 'a'] "abc".data ∧
        maxScore ['a', 'b'] "abc".data = maxScore ['b', 'a'] "abc".data ∧
        scorePercent ['a', 'b'] "abc".data = scorePercent ['b', 'a'] "abc".data ∧
        (accepted ['a', 'b'] "abc".data ↔ accepted ['b', 'a'] "abc".data)) :=
  ⟨List.Perm.swap 'b' 'a' [],
    score_query_perm_invariant ['a', 'b'] ['b', 'a'] "abc".data (List.Perm.swap 'b' 'a' [])⟩

/-- C10: after an update, the filtered combo holds exactly the first
components of the accepted pairs, in rank order, and every stored text is an
original (unmodified) element of the master list — the lower-cased working
copies never reach the output. -/
theorem filtered_texts_are_originals (fc : FuzzyCombo) :
    fc.update.filtered_combo.items = (fuzzyEvaluate fc.query fc.items).map Prod.fst ∧
      fc.update.filtered_combo.current_item = 0 ∧
      ∀ t ∈ fc.update.filtered_combo.items, t ∈ fc.items := by
  have hitems : fc.update.filtered_combo.items
      = (fuzzyEvaluate fc.query fc.items).map Prod.fst := by
    show ((fuzzyEvaluate fc.query fc.items).foldl (fun c p => c.add_item p.1)
        fc.filtered_combo.clear).items = _
    rw [combo_foldl_add_fst]
    simp [Combo.clear]
  refine ⟨hitems, rfl, ?_⟩
  intro t ht
  rw [hitems] at ht
  rcases List.mem_map.mp ht with ⟨z, hz, rfl⟩
  exact ((mem_fuzzyEvaluate _ _ z).mp hz).1

theorem filtered_texts_are_originals_witness :
    (FuzzyCombo.update
          ⟨⟨2, ['a', 'p', Char.ofNat 0]⟩, ["Apple".data], ⟨0, []⟩⟩).filtered_combo.items
        = [("Apple".data)] ∧
      "Apple".data ∈ (["Apple".data] : List (List Char)) := by
  have h := filtered_texts_are_originals ⟨⟨2, ['a', 'p', Char.ofNat 0]⟩, ["Apple".data], ⟨0, []⟩⟩
  refine ⟨?_, h.2.2 "Apple".data ?_⟩
  · rw [h.1]; decide
  · rw [h.1]; decide

end EasyDear
